import Mathlib

/-!
Shallow embedding of the rgssad-fuse core (src/rgssad/crypto.py and
src/rgssad/core.py).  Byte strings are `List Nat` (each element a byte
value), 32-bit machine integers are `Nat` reduced `% 2^32` exactly where
the Python code applies `& 0xffffffff` (for nonnegative values the two
coincide; where Python computes an intermediate negative value we add an
explicit multiple of `2^32` before subtracting, which is congruent).
Python `int`s that may go negative (Bezout coefficients, seek offsets)
are `Int`; Python `//` on `Int` is `Int.fdiv` (floor) and `%` on a
positive modulus is `Int.emod`, both matching Python's semantics.
Fallible operations (assertions, exceptions, out-of-range table lookups)
return `Option`.
-/

/-- `xgcd(a, m)` from crypto.py.  The loop state is `(old_r, r, old_s, s)`;
the `r` values stay nonnegative so they are `Nat` and Python's floor
division coincides with `Nat` division; the Bezout coefficient `s` may go
negative so it is `Int`.  The second Bezout coefficient (`t` in the
source) is dropped, as in the source. -/
def xgcdGo (old_r r : Nat) (old_s s : Int) : Nat × Int :=
  if h : r = 0 then (old_r, old_s)
  else
    have : old_r % r < r := Nat.mod_lt _ (Nat.pos_of_ne_zero h)
    xgcdGo r (old_r % r) s (old_s - ((old_r / r : Nat) : Int) * s)
termination_by r

/-- `xgcd(a, m)`: returns `(gcd, s)` with `gcd = a*s (mod m)`. -/
def xgcd (a m : Nat) : Nat × Int := xgcdGo a m 1 0

/-- One row of the LCG composition table: `(m_b, a_b, im_b)`;
`im_b = none` models Python's `None` (non-invertible multiplier). -/
abbrev LcgRow := Nat × Nat × Option Nat

/-- The `for i in range(1, bits)` tail of `lcg_gen` in crypto.py:
squares the affine map (and the inverse multiplier, when present) at
each step, masking to 32 bits. -/
def lcgGenFrom (m a : Nat) (im : Option Nat) : Nat → List LcgRow
  | 0 => []
  | n + 1 =>
    let m2 := m * m % 2 ^ 32
    let a2 := a * (m + 1) % 2 ^ 32
    let im2 := im.map fun x => x * x % 2 ^ 32
    (m2, a2, im2) :: lcgGenFrom m2 a2 im2 n

/-- `lcg_gen(mul, add, bits)` from crypto.py, collected into a list: the
first yielded row is `(mul, add, im)` where `im` is the inverse of `mul`
modulo `2^32` when `gcd(mul, 2^32) = 1` (masked to 32 bits) and `None`
otherwise; the remaining `bits - 1` rows square the previous row. -/
def lcg_gen (mul add bits : Nat) : List LcgRow :=
  let gs := xgcd mul (2 ^ 32)
  let im : Option Nat := if gs.1 ≠ 1 then none else some ((gs.2 % (2 ^ 32 : Int)).toNat)
  (mul, add, im) :: lcgGenFrom mul add im (bits - 1)

/-- `LCG_TABLE = tuple(lcg_gen(7, 3, 30))` from crypto.py. -/
def LCG_TABLE : List LcgRow := lcg_gen 7 3 30

/-- `MagicKeyFactory._transform` with the default table row `(7, 3)`:
one LCG step `k -> (k*7 + 3) mod 2^32`. -/
def lcgNext (k : Nat) : Nat := (k * 7 + 3) % 2 ^ 32

/-- Applying one table row in `MagicKeyFactory._transformn`:
`key = (key * m_b + a_b) & 0xffffffff`. -/
def rowApply (r : LcgRow) (k : Nat) : Nat := (k * r.1 + r.2.1) % 2 ^ 32

/-- The `while n:` loop of `MagicKeyFactory._transformn`, walking the
table from bit position 0.  The list argument is the table suffix from
the current `bitpos`; reaching the end of the table with bits of `n`
still set models the `IndexError` of `LCG_TABLE[bitpos]`. -/
def transformnGo : List LcgRow → Nat → Nat → Option Nat
  | _, 0, key => some key
  | [], _ + 1, _ => none
  | r :: rest, n, key =>
    transformnGo rest (n / 2) (if n % 2 = 1 then rowApply r key else key)

/-- `MagicKeyFactory.skip(count)` = `_transformn(count)` over the global
`LCG_TABLE`. -/
def skipLCG (n k : Nat) : Option Nat := transformnGo LCG_TABLE n k

/-- Applying one table row backwards in `_transformn_backwards`:
`key -= a_b; key *= im_b; key &= 0xffffffff`.  Python's intermediate
value may be negative; adding `2^32` before subtracting is congruent and
keeps the computation in `Nat` (`a_b ≤ 2^32` for every table row).
`im_b = None` models Python's `TypeError` on `key *= None`. -/
def rowApplyBack (r : LcgRow) (k : Nat) : Option Nat :=
  r.2.2.map fun im => (k + 2 ^ 32 - r.2.1) * im % 2 ^ 32

/-- The `while n:` loop of `MagicKeyFactory._transformn_backwards`. -/
def transformnBackGo : List LcgRow → Nat → Nat → Option Nat
  | _, 0, key => some key
  | [], _ + 1, _ => none
  | r :: rest, n, key =>
    if n % 2 = 1 then
      (rowApplyBack r key).bind fun key2 => transformnBackGo rest (n / 2) key2
    else transformnBackGo rest (n / 2) key

/-- `self.can_rewind = self._lcg_table[0][2] is not None` for the
default table. -/
def can_rewind : Bool := ((LCG_TABLE.headD (0, 0, none)).2.2).isSome

/-- `MagicKeyFactory.rewind(count)` = `_transformn_backwards(count)`:
raises (`none`) when `can_rewind` is false. -/
def rewindLCG (n k : Nat) : Option Nat :=
  if can_rewind then transformnBackGo LCG_TABLE n k else none

/-- `MagicKeyFactory.one_step_rollback()` = `_transform_backwards()`:
`key = (key - a_0) * im_0 mod 2^32` using table row 0; raises (`none`)
when `can_rewind` is false. -/
def one_step_rollback (k : Nat) : Option Nat :=
  if can_rewind then rowApplyBack (LCG_TABLE.headD (0, 0, none)) k else none

/-- `StaticMagicKeyFactory.get_next` returns the key and never advances:
the state-advance function is the identity. -/
def staticAdvance (k : Nat) : Nat := k

/-- `StaticMagicKeyFactory.one_step_rollback` does nothing. -/
def staticRollback (k : Nat) : Option Nat := some k

/-! ## XORer (crypto.py)

The byte source (`io_obj`) is a `List Nat` of byte values together with a
cursor; `readinto` returns the available bytes `(arc.drop rpos).take n`
and advances the cursor by the number of bytes obtained.  The XOR reader
is parametric in the key factory's `get_next` state advance (`lcgNext`
for `MagicKeyFactory`, `staticAdvance` for `StaticMagicKeyFactory`) and
in `one_step_rollback`. -/

/-- Shared mutable state of an `io_obj`/key-factory pair: the raw file
cursor and the current 32-bit key. -/
structure RWState where
  rpos : Nat
  key : Nat
  deriving DecidableEq, Repr

/-- A 32-bit word from four little-endian bytes (`struct.unpack('<I')`). -/
def leWord (b0 b1 b2 b3 : Nat) : Nat := b0 + 256 * (b1 + 256 * (b2 + 256 * b3))

/-- `struct.unpack('<{n}I', buf)`: split a byte string whose length is a
multiple of 4 into little-endian 32-bit words. -/
def bytesToWords : List Nat → List Nat
  | b0 :: b1 :: b2 :: b3 :: rest => leWord b0 b1 b2 b3 :: bytesToWords rest
  | _ => []

/-- `struct.pack('<I', w)`: the four little-endian bytes of a 32-bit word. -/
def wordToBytes (w : Nat) : List Nat :=
  [w % 256, w / 256 % 256, w / 65536 % 256, w / 16777216 % 256]

/-- `struct.pack('<{n}I', ws)`. -/
def wordsToBytes (ws : List Nat) : List Nat := (ws.map wordToBytes).flatten

/-- Byte `r` (little-endian, `r < 4`) of a 32-bit key. -/
def keyByte (k r : Nat) : Nat := k / 256 ^ r % 256

/-- The generator `(i ^ self.magickey_obj.get_next() for i in ...)`:
XOR each word with a fresh key, advancing the key state with `f` after
each draw.  Returns the XORed words and the final key state. -/
def xorWords (f : Nat → Nat) (k : Nat) : List Nat → List Nat × Nat
  | [] => ([], k)
  | w :: ws =>
    let r := xorWords f (f k) ws
    ((w ^^^ k) :: r.1, r.2)

/-- `XORer.read_32bits(count)` from crypto.py.  `readinto` fills a
`4*count` byte buffer from the source; on a short read the code shrinks
the word count to `actual_length // 4` but then calls `fmt.unpack(buf)`
on the full-size buffer, which raises `struct.error` whenever the sizes
disagree (modelled by the `4 * count2 ≠ buf.length` test); the
`assert actual_length % 4 == 0` is the first `none` case. -/
def read_32bits (f : Nat → Nat) (arc : List Nat) (st : RWState) (count : Nat) :
    Option (List Nat × RWState) :=
  let length := 4 * count
  let raw := (arc.drop st.rpos).take length
  let actual := raw.length
  if actual % 4 ≠ 0 then none
  else
    let count2 := if actual ≠ length then actual / 4 else count
    let buf := raw ++ List.replicate (length - actual) 0
    if 4 * count2 ≠ buf.length then none
    else
      let r := xorWords f st.key (bytesToWords buf)
      some (r.1, ⟨st.rpos + actual, r.2⟩)

/-- `XORer.read_32bits_unaligned(count_bytes, left_offset)` from
crypto.py.  `count = ceil((count_bytes + left_offset) / 4)` blocks; the
raw bytes are placed at offset `left_offset` of a zeroed `4*count` byte
buffer, the buffer is XORed wordwise against successive keys, and the
slice `[left_offset, left_offset + count_bytes)` of the result is
returned.  When the final block is only partially occupied
(`4*count ≠ left_offset + count_bytes`) the key factory's one-step
rollback `rb` runs.  The leading `assert left_offset in range(0, 4)` is
the first `none` case. -/
def read_32bits_unaligned (f : Nat → Nat) (rb : Nat → Option Nat) (arc : List Nat)
    (st : RWState) (count_bytes left_offset : Nat) : Option (List Nat × RWState) :=
  if 4 ≤ left_offset then none
  else
    let count := (count_bytes + left_offset + 3) / 4
    let raw := (arc.drop st.rpos).take count_bytes
    let buf := List.replicate left_offset 0 ++ raw
        ++ List.replicate (4 * count - (left_offset + raw.length)) 0
    let r := xorWords f st.key (bytesToWords buf)
    let res := ((wordsToBytes r.1).drop left_offset).take count_bytes
    if 4 * count ≠ left_offset + count_bytes then
      (rb r.2).map fun key2 => (res, ⟨st.rpos + raw.length, key2⟩)
    else some (res, ⟨st.rpos + raw.length, r.2⟩)

/-! ## Seekable entry stream (core.py, class File) -/

/-- The per-entry constants of an open `File`: `vfile_base` (payload
offset in the archive), `vfile_length` (payload size) and the per-entry
seed handed to `MagicKeyFactory`. -/
structure Entry where
  base : Nat
  size : Nat
  seed : Nat
  deriving DecidableEq, Repr

/-- `File.__init__`: raw cursor at `vfile_base`, key factory reset to
the entry seed. -/
def fileOpen (e : Entry) : RWState := ⟨e.base, e.seed⟩

/-- `File.tell()` = `tell_real() - vfile_base` (may be negative for
inconsistent states, hence `Int`). -/
def ftell (e : Entry) (st : RWState) : Int := (st.rpos : Int) - e.base

/-- `File._read_data_32bit(count)`: empty result for `count <= 0`,
otherwise an unaligned XOR read at `left_offset = tell() % 4`. -/
def read_data_32bit (arc : List Nat) (e : Entry) (st : RWState) (count : Int) :
    Option (List Nat × RWState) :=
  if count ≤ 0 then some ([], st)
  else
    let truncate_bytes := (ftell e st % 4).toNat
    read_32bits_unaligned lcgNext one_step_rollback arc st count.toNat truncate_bytes

/-- `File.read(size)`: sizes below zero or beyond the remaining payload
read everything up to the virtual end of file (`readall`). -/
def fileRead (arc : List Nat) (e : Entry) (st : RWState) (size : Int) :
    Option (List Nat × RWState) :=
  if size < 0 ∨ (e.size : Int) - ftell e st < size then
    read_data_32bit arc e st ((e.size : Int) - ftell e st)
  else read_data_32bit arc e st size

/-- The three `whence` values of `File.seek`. -/
inductive Whence where
  | set
  | cur
  | fromEnd
  deriving DecidableEq, Repr

/-- `MagicKeyFactory.skip` with a Python `int` count.  A negative count
makes the Python `while n:` loop run forever (`n >> 1` of a negative is
never 0); the call sites never produce one, and the model maps it to
failure. -/
def skipI (n : Int) (k : Nat) : Option Nat :=
  if n < 0 then none else skipLCG n.toNat k

/-- `MagicKeyFactory.rewind` with a Python `int` count (same remark as
`skipI`). -/
def rewindI (n : Int) (k : Nat) : Option Nat :=
  if n < 0 then none else rewindLCG n.toNat k

/-- `File.seek._rewind_or_reset_skip(from_block, to_block)`:
`assert to_block <= from_block`; rewind when the target is in the upper
half of the traversed range, otherwise `reset()` (key back to the entry
seed) followed by `skip(to_block)`. -/
def rewind_or_reset_skip (seed : Nat) (from_block to_block : Int) (key : Nat) : Option Nat :=
  if ¬ to_block ≤ from_block then none
  else if to_block ≥ Int.fdiv from_block 2 then rewindI (from_block - to_block) key
  else skipI to_block seed

/-- `File.seek(offset, whence)` from core.py: the negative-position
check (`OSError(EINVAL)`), the keystream update branches on
`(whence, block_count - cur_block)`, and the raw `super().seek` (for
`SEEK_END` Python seeks relative to the end of the *archive file*, i.e.
`arc.length`).  Python `//` is `Int.fdiv` and `%` is `Int.emod`. -/
def fileSeek (arc : List Nat) (e : Entry) (st : RWState) (offset : Int) (whence : Whence) :
    Option RWState :=
  if (whence = .set ∧ offset < 0) ∨ (whence = .cur ∧ offset + ftell e st < 0)
      ∨ (whence = .fromEnd ∧ offset + e.size < 0) then none
  else
    let block_count := Int.fdiv offset 4
    let cur_block := Int.fdiv (ftell e st) 4
    let keyRes : Option Nat :=
      if whence = .set ∧ cur_block ≤ block_count then
        skipI (block_count - cur_block) st.key
      else if whence = .set ∧ block_count < cur_block then
        rewind_or_reset_skip e.seed cur_block block_count st.key
      else if whence = .cur ∧ 0 ≤ block_count then
        skipI (Int.fdiv (ftell e st % 4 + offset) 4) st.key
      else if whence = .cur ∧ block_count < 0 then
        rewind_or_reset_skip e.seed cur_block (Int.fdiv (ftell e st + offset) 4) st.key
      else if whence = .fromEnd then
        rewind_or_reset_skip e.seed (Int.fdiv e.size 4) (Int.fdiv ((e.size : Int) + offset) 4)
          st.key
      else some st.key
    let offset_real := if whence = .set then offset + e.base else offset
    keyRes.bind fun key2 =>
      let rpos2 : Int :=
        match whence with
        | .set => offset_real
        | .cur => st.rpos + offset_real
        | .fromEnd => arc.length + offset_real
      if rpos2 < 0 then none else some ⟨rpos2.toNat, key2⟩

/-! ## Archive header detection (core.py, Archive._parse_metadata) -/

/-- The bytes of `b'RGSSAD'`. -/
def RGSSAD_MAGIC : List Nat := [82, 71, 83, 83, 65, 68]

/-- The bytes of `b'Fux2Pack'`. -/
def FUX2PACK_MAGIC : List Nat := [70, 117, 120, 50, 80, 97, 99, 107]

/-- Archive layout chosen by the header check. -/
inductive ArcFormat where
  | v1
  | v3
  | fux2pack
  deriving DecidableEq, Repr

/-- The magic check of `Archive._parse_metadata`:
`struct.unpack('<6sxB', magic_raw)` takes bytes 0..5 as `magic`, skips
byte 6 (the `x` pad byte is not compared against anything), and takes
byte 7 as `ver`; it raises `struct.error` unless exactly 8 bytes were
read.  `RuntimeError('Unsupported file type')` (`none`) when
`(magic != b'RGSSAD' or ver not in (1,2,3)) and magic_raw != b'Fux2Pack'`. -/
def check_magic (hdr : List Nat) : Option ArcFormat :=
  if hdr.length ≠ 8 then none
  else
    let magic := hdr.take 6
    let ver := hdr.getD 7 0
    if (magic ≠ RGSSAD_MAGIC ∨ (ver ≠ 1 ∧ ver ≠ 2 ∧ ver ≠ 3)) ∧ hdr ≠ FUX2PACK_MAGIC then
      none
    else if hdr = FUX2PACK_MAGIC then some .fux2pack
    else if ver = 1 ∨ ver = 2 then some .v1
    else if ver = 3 then some .v3
    else none

/-- The header-acceptance predicate exactly as the claim states it
(spec wording): the first 8 bytes are ASCII `"RGSSAD\0"` followed by a
version byte 1, 2 or 3, or exactly the 8 bytes `"Fux2Pack"`.  This
definition follows the claim, not the code, for refutation. -/
def claim_header_ok (hdr : List Nat) : Prop :=
  hdr = RGSSAD_MAGIC ++ [0, 1] ∨ hdr = RGSSAD_MAGIC ++ [0, 2] ∨
    hdr = RGSSAD_MAGIC ++ [0, 3] ∨ hdr = FUX2PACK_MAGIC

/-- The header-acceptance condition actually implemented: bytes 0..5
are `"RGSSAD"` and byte 7 is 1, 2 or 3 (byte 6 is ignored), or the
8 bytes are exactly `"Fux2Pack"`. -/
def code_header_ok (hdr : List Nat) : Prop :=
  (hdr.take 6 = RGSSAD_MAGIC ∧ (hdr.getD 7 0 = 1 ∨ hdr.getD 7 0 = 2 ∨ hdr.getD 7 0 = 3))
    ∨ hdr = FUX2PACK_MAGIC

/-! ## v3 / Fux2Pack metadata parsing (core.py, _parser_v3) -/

/-- `metadata_key = ((metadata_key_seed * 9 + 3) & 0xffffffff) if not
is_fux2pack else metadata_key_seed` (core.py line 99). -/
def parser_v3_metadata_key (is_fux2pack : Bool) (seed : Nat) : Nat :=
  if ¬ is_fux2pack then (seed * 9 + 3) % 2 ^ 32 else seed

/-- One 16-byte record header of `_parser_v3`:
`f_offset, f_size, subkey, fn_len = xorer.read_32bits(4)` with the
static key factory. -/
def parser_v3_read_record (arc : List Nat) (st : RWState) : Option (List Nat × RWState) :=
  read_32bits staticAdvance arc st 4

/-- The filename read of `_parser_v3`:
`fn = xorer.read_32bits_unaligned(fn_len)` (left offset 0) with the
static key factory. -/
def parser_v3_read_fn (arc : List Nat) (st : RWState) (fn_len : Nat) :
    Option (List Nat × RWState) :=
  read_32bits_unaligned staticAdvance staticRollback arc st fn_len 0

/-! ## Directory tree (core.py, Archive.__init__ / _build_directory_tree)

Inodes are an append-only array indexed by inode id; indices below the
root inode are `None` sentinels.  Path splitting
(`ntpath.split(ntpath.normpath(...))`) happens before the tree builder
in `_build_directory_tree`'s loop; the model takes the already-split
directory components and basename as input, which is what `_nt_mkdir_p`
and `_add_file_entry` consume. -/

/-- An inode: either a directory with an ordered `(id, name)` child list
or a file entry `(offset, size, magickey)`. -/
inductive Inode where
  | dir (children : List (Nat × String))
  | file (offset size magickey : Nat)
  deriving DecidableEq, Repr

/-- The inode table plus the configured root inode id. -/
structure ArchiveTree where
  root_inode : Nat
  inodes : List (Option Inode)
  deriving DecidableEq, Repr

/-- `Archive.__init__`: `root_inode * [None]` sentinels followed by the
root directory whose children are `.` and `..`, both the root itself. -/
def archiveInitTree (root : Nat) : ArchiveTree :=
  ⟨root, List.replicate root none ++ [some (.dir [(root, "."), (root, "..")])]⟩

/-- `Archive.readdir(inode)` without an offset: the stored child list in
insertion order.  (Python raises on a non-directory inode; in the model
such calls only occur where the result is discarded on failure, and the
claims only constrain directory inodes.) -/
def readdirAll (t : ArchiveTree) (inode : Nat) : List (Nat × String) :=
  match t.inodes.get? inode with
  | some (some (.dir ch)) => ch
  | _ => []

/-- `Archive.readdir(inode, offset)`: `children[offset:]` when an offset
is given. -/
def readdir (t : ArchiveTree) (inode : Nat) (offset : Option Nat) : List (Nat × String) :=
  match offset with
  | none => readdirAll t inode
  | some o => (readdirAll t inode).drop o

/-- `Archive.lookup(parent_inode, name)`: linear scan of the children in
order, first match wins. -/
def treeLookup (t : ArchiveTree) (parent : Nat) (name : String) : Option Nat :=
  ((readdirAll t parent).find? fun c => c.2 = name).map fun c => c.1

/-- `_build_directory_tree._mknod(parent_inode, name, entry_type)`: append
the new inode, then append `(new_id, name)` to the parent's child list.
Python would raise (`KeyError`) if the parent is not a directory. -/
def mknod (t : ArchiveTree) (parent : Nat) (name : String) (node : Inode) :
    Option (ArchiveTree × Nat) :=
  match t.inodes.get? parent with
  | some (some (.dir ch)) =>
    let inodes1 := t.inodes ++ [some node]
    let inode := t.inodes.length
    some (⟨t.root_inode, inodes1.set parent (some (.dir (ch ++ [(inode, name)])))⟩, inode)
  | _ => none

/-- `_build_directory_tree._mkdir(parent_inode, name)`: a new directory
inode whose children start as `.` (itself) and `..` (the parent). -/
def mkdirNode (t : ArchiveTree) (parent : Nat) (name : String) : Option (ArchiveTree × Nat) :=
  let inode := t.inodes.length
  mknod t parent name (.dir [(inode, "."), (parent, "..")])

/-- `_build_directory_tree._add_file_entry`. -/
def addFileEntry (t : ArchiveTree) (parent : Nat) (name : String)
    (offset size magickey : Nat) : Option (ArchiveTree × Nat) :=
  mknod t parent name (.file offset size magickey)

/-- `_build_directory_tree._nt_mkdir_p(path)` over the already-split
components of `ntpath.normpath(path)`: walk from the root, descending
into existing children and creating directories for missing ones. -/
def ntMkdirP (t : ArchiveTree) (comps : List String) : Option (ArchiveTree × Nat) :=
  comps.foldlM
    (fun acc p =>
      match treeLookup acc.1 acc.2 p with
      | some next => some (acc.1, next)
      | none => mkdirNode acc.1 acc.2 p)
    (t, t.root_inode)

/-- One parsed metadata entry as consumed by the tree builder:
the split directory components and basename of the filename, plus
`(offset, size, magickey)`. -/
structure MdEntry where
  dirComps : List String
  basename : String
  offset : Nat
  size : Nat
  magickey : Nat
  deriving DecidableEq, Repr

/-- The entry loop of `_build_directory_tree` over the parsed entries,
starting from the freshly initialised inode table. -/
def buildDirectoryTree (root : Nat) (entries : List MdEntry) : Option ArchiveTree :=
  entries.foldlM
    (fun t e => do
      let (t1, parent) ← ntMkdirP t e.dirComps
      let (t2, _) ← addFileEntry t1 parent e.basename e.offset e.size e.magickey
      pure t2)
    (archiveInitTree root)

/-! ## Helper predicates and reference decryption used in the theorems -/

/-- `RowsSpec t p` says row `i` of the table suffix `t` implements
`2^(p+i)` LCG steps as one affine map. -/
def RowsSpec : List LcgRow → Nat → Prop
  | [], _ => True
  | r :: rest, p => (∀ k, rowApply r k = lcgNext^[2 ^ p] k) ∧ RowsSpec rest (p + 1)

/-- Reference plaintext byte `p` of an entry: the archive byte at
`base + p` XORed with byte `p % 4` of the `p / 4`-th key of the entry's
keystream.  Both read paths of the stream are proved to produce exactly
these bytes. -/
def plainByte (arc : List Nat) (base seed p : Nat) : Nat :=
  arc.getD (base + p) 0 ^^^ keyByte (lcgNext^[p / 4] seed) (p % 4)

/-- The byte string produced by a successful
`read_32bits_unaligned f _ arc ⟨p, k⟩ L off`: byte `t` is the raw
archive byte at `p + t` XORed with byte `(off + t) % 4` of key number
`(off + t) / 4` drawn from `k`. -/
def unalignedOut (f : Nat → Nat) (arc : List Nat) (p k L off : Nat) : List Nat :=
  (List.range L).map fun t =>
    arc.getD (p + t) 0 ^^^ keyByte (f^[(off + t) / 4] k) ((off + t) % 4)

/-- The directory-shape invariant of the inode table: the root inode is
a directory, and every directory's child list starts with `.` (itself)
and `..` (a directory `p`; the root for the root, and for any other
directory a directory that lists it as a child). -/
def TreeInv (t : ArchiveTree) : Prop :=
  (∃ rch, t.inodes.get? t.root_inode = some (some (.dir rch)))
  ∧ ∀ i ch, t.inodes.get? i = some (some (.dir ch)) →
      ∃ p rest, ch = (i, ".") :: (p, "..") :: rest
        ∧ (∃ pch, t.inodes.get? p = some (some (.dir pch)))
        ∧ (i = t.root_inode → p = t.root_inode)
        ∧ (i ≠ t.root_inode → ∃ nm, (i, nm) ∈ readdirAll t p)

example : lcgNext 0xdeadcafe = 0x16c08cf5 := by decide

/-! ## Keystream engine theorems -/

theorem xgcdGo_zero (a : Nat) (s t : Int) : xgcdGo a 0 s t = (a, s) := by
  rw [xgcdGo]
  rfl

theorem xgcdGo_ne (a r : Nat) (s t : Int) (h : r ≠ 0) :
    xgcdGo a r s t = xgcdGo r (a % r) t (s - ((a / r : Nat) : Int) * t) := by
  rw [xgcdGo]
  simp [h]

theorem xgcd_seven : xgcd 7 4294967296 = (1, -1227133513) := by
  norm_num [xgcd, xgcdGo_ne, xgcdGo_zero]

theorem LCG_TABLE_cons :
    LCG_TABLE = (7, 3, some 0xb6db6db7) :: lcgGenFrom 7 3 (some 0xb6db6db7) 29 := by
  show lcg_gen 7 3 30 = _
  rw [lcg_gen]
  norm_num [xgcd_seven]
  exact ⟨rfl, rfl⟩

theorem LCG_TABLE_len : LCG_TABLE.length = 30 := by rfl

example : skipLCG (2 ^ 30) 0xdeadcafe = none := by decide

theorem can_rewind_true : can_rewind = true := by
  rw [can_rewind, LCG_TABLE_cons]
  rfl


theorem rowApply_sq (m a : Nat) (f : Nat → Nat)
    (hf : ∀ k, (k * m + a) % 2 ^ 32 = f k) (k : Nat) :
    (k * (m * m % 2 ^ 32) + a * (m + 1) % 2 ^ 32) % 2 ^ 32 = f (f k) := by
  rw [← hf, ← hf]
  have h1 : (k * (m * m % 2 ^ 32) + a * (m + 1) % 2 ^ 32) % 2 ^ 32
      = (k * (m * m) + a * (m + 1)) % 2 ^ 32 := by
    exact Nat.ModEq.add (Nat.ModEq.mul_left k (Nat.mod_modEq _ _))
      (Nat.mod_modEq _ _)
  have h2 : ((k * m + a) % 2 ^ 32 * m + a) % 2 ^ 32
      = ((k * m + a) * m + a) % 2 ^ 32 := by
    exact Nat.ModEq.add_right a (Nat.ModEq.mul_right m (Nat.mod_modEq _ _))
  rw [h1, h2]
  ring_nf

theorem rowsSpec_from (fuel : Nat) :
    ∀ p m a im, (∀ k, (k * m + a) % 2 ^ 32 = lcgNext^[2 ^ p] k) →
      RowsSpec (lcgGenFrom m a im fuel) (p + 1) := by
  induction fuel with
  | zero => intro p m a im _; trivial
  | succ n ih =>
    intro p m a im h
    refine ⟨?_, ?_⟩
    · intro k
      have := rowApply_sq m a (lcgNext^[2 ^ p]) h k
      simpa [rowApply, pow_succ, mul_two, Function.iterate_add_apply] using this
    · exact ih (p + 1) _ _ _ fun k => by
        have := rowApply_sq m a (lcgNext^[2 ^ p]) h k
        simpa [pow_succ, mul_two, Function.iterate_add_apply] using this

theorem rowsSpec_table : RowsSpec LCG_TABLE 0 := by
  rw [LCG_TABLE_cons]
  refine ⟨fun k => by simp [rowApply, lcgNext], ?_⟩
  exact rowsSpec_from 29 0 7 3 _ fun k => by simp [lcgNext]

theorem transformnGo_spec :
    ∀ (t : List LcgRow) (p n k : Nat), RowsSpec t p → n < 2 ^ t.length →
      transformnGo t n k = some (lcgNext^[n * 2 ^ p] k) := by
  intro t
  induction t with
  | nil =>
    intro p n k _ hn
    simp at hn
    subst hn
    simp [transformnGo]
  | cons r rest ih =>
    intro p n k hspec hn
    match n with
    | 0 => simp [transformnGo]
    | n + 1 =>
      have hrec : transformnGo (r :: rest) (n + 1) k
          = transformnGo rest ((n + 1) / 2)
              (if (n + 1) % 2 = 1 then rowApply r k else k) := rfl
      rw [hrec]
      have hlt : (n + 1) / 2 < 2 ^ rest.length := by
        simp [List.length_cons, pow_succ] at hn
        omega
      rw [ih (p + 1) _ _ hspec.2 hlt]
      congr 1
      rcases Nat.even_or_odd (n + 1) with he | ho
      · have h0 : (n + 1) % 2 = 0 := Nat.even_iff.mp he
        rw [if_neg (by omega)]
        congr 1
        have : 2 * ((n + 1) / 2) = n + 1 := by omega
        calc (n + 1) / 2 * 2 ^ (p + 1) = (n + 1) / 2 * (2 ^ p * 2) := by rw [pow_succ]
          _ = 2 * ((n + 1) / 2) * 2 ^ p := by ring
          _ = (n + 1) * 2 ^ p := by rw [this]
      · have h1 : (n + 1) % 2 = 1 := Nat.odd_iff.mp ho
        rw [if_pos h1, hspec.1 k, ← Function.iterate_add_apply]
        congr 1
        have : 2 * ((n + 1) / 2) + 1 = n + 1 := by omega
        calc (n + 1) / 2 * 2 ^ (p + 1) + 2 ^ p
            = (2 * ((n + 1) / 2) + 1) * 2 ^ p := by rw [pow_succ]; ring
          _ = (n + 1) * 2 ^ p := by rw [this]

theorem skipLCG_spec (n k : Nat) (hn : n < 2 ^ 30) :
    skipLCG n k = some (lcgNext^[n] k) := by
  have := transformnGo_spec LCG_TABLE 0 n k rowsSpec_table (by rw [LCG_TABLE_len]; exact hn)
  simpa using this

theorem rowsSpec_get :
    ∀ (t : List LcgRow) (p : Nat), RowsSpec t p →
      ∀ (i : Nat) (h : i < t.length) (k : Nat),
        rowApply (t.get ⟨i, h⟩) k = lcgNext^[2 ^ (p + i)] k := by
  intro t
  induction t with
  | nil => intro p _ i h; simp at h
  | cons r rest ih =>
    intro p hspec i h k
    match i with
    | 0 => simpa using hspec.1 k
    | i + 1 =>
      have := ih (p + 1) hspec.2 i (by simpa using h) k
      simpa [Nat.add_comm, Nat.add_left_comm] using this

theorem transformnGo_none :
    ∀ (t : List LcgRow) (n k : Nat), 2 ^ t.length ≤ n → transformnGo t n k = none := by
  intro t
  induction t with
  | nil =>
    intro n k hn
    simp only [List.length_nil, pow_zero] at hn
    rcases n with _ | n
    · omega
    · rfl
  | cons r rest ih =>
    intro n k hn
    simp only [List.length_cons, pow_succ] at hn
    have hpos : 0 < 2 ^ rest.length := pow_pos (by norm_num) _
    rcases n with _ | n
    · omega
    · show transformnGo rest ((n + 1) / 2) _ = none
      exact ih _ _ (by omega)

theorem transformnBackGo_isSome :
    ∀ (t : List LcgRow) (n k : Nat), (∀ r ∈ t, r.2.2.isSome) → n < 2 ^ t.length →
      (transformnBackGo t n k).isSome = true := by
  intro t
  induction t with
  | nil =>
    intro n k _ hn
    simp at hn
    subst hn
    rfl
  | cons r rest ih =>
    intro n k hall hn
    have hlt : (n + 1) / 2 < 2 ^ rest.length → True := fun _ => trivial
    match n with
    | 0 => rfl
    | n + 1 =>
      have hr : r.2.2.isSome := hall r (by simp)
      obtain ⟨im, him⟩ := Option.isSome_iff_exists.mp hr
      have hlen : (n + 1) / 2 < 2 ^ rest.length := by
        simp only [List.length_cons, pow_succ] at hn
        omega
      have hrest : ∀ q ∈ rest, q.2.2.isSome := fun q hq => hall q (by simp [hq])
      show (transformnBackGo (r :: rest) (n + 1) k).isSome = true
      by_cases hpar : (n + 1) % 2 = 1
      · show (if (n + 1) % 2 = 1 then
            (rowApplyBack r k).bind fun key2 => transformnBackGo rest ((n + 1) / 2) key2
          else transformnBackGo rest ((n + 1) / 2) k).isSome = true
        rw [if_pos hpar]
        simp only [rowApplyBack, him, Option.map_some', Option.bind_some]
        exact ih _ _ hrest hlen
      · show (if (n + 1) % 2 = 1 then
            (rowApplyBack r k).bind fun key2 => transformnBackGo rest ((n + 1) / 2) key2
          else transformnBackGo rest ((n + 1) / 2) k).isSome = true
        rw [if_neg hpar]
        exact ih _ _ hrest hlen

theorem transformnBackGo_none :
    ∀ (t : List LcgRow) (n k : Nat), 2 ^ t.length ≤ n → transformnBackGo t n k = none := by
  intro t
  induction t with
  | nil =>
    intro n k hn
    simp only [List.length_nil, pow_zero] at hn
    rcases n with _ | n
    · omega
    · rfl
  | cons r rest ih =>
    intro n k hn
    simp only [List.length_cons, pow_succ] at hn
    have hpos : 0 < 2 ^ rest.length := pow_pos (by norm_num) _
    rcases n with _ | n
    · omega
    · show (if (n + 1) % 2 = 1 then
          (rowApplyBack r k).bind fun key2 => transformnBackGo rest ((n + 1) / 2) key2
        else transformnBackGo rest ((n + 1) / 2) k) = none
      split
      · rcases hop : rowApplyBack r k with _ | key2
        · rfl
        · exact ih _ _ (by omega)
      · exact ih _ _ (by omega)

theorem lcgGenFrom_allSome :
    ∀ (fuel m a : Nat) (im : Nat),
      ∀ r ∈ lcgGenFrom m a (some im) fuel, r.2.2.isSome := by
  intro fuel
  induction fuel with
  | zero =>
    intro m a im r hr
    rw [show lcgGenFrom m a (some im) 0 = [] from rfl] at hr
    exact absurd hr (List.not_mem_nil r)
  | succ n ih =>
    intro m a im r hr
    simp only [lcgGenFrom, Option.map_some', List.mem_cons] at hr
    rcases hr with h | h
    · subst h; rfl
    · exact ih _ _ _ r h

theorem LCG_TABLE_allSome : ∀ r ∈ LCG_TABLE, r.2.2.isSome := by
  rw [LCG_TABLE_cons]
  intro r hr
  rcases List.mem_cons.mp hr with h | h
  · subst h; rfl
  · exact lcgGenFrom_allSome 29 7 3 0xb6db6db7 r h

theorem skipLCG_isSome_iff (n k : Nat) : (skipLCG n k).isSome = true ↔ n < 2 ^ 30 := by
  constructor
  · intro h
    by_contra hge
    rw [skipLCG, transformnGo_none LCG_TABLE n k (by rw [LCG_TABLE_len]; omega)] at h
    simp at h
  · intro h
    rw [skipLCG_spec n k h]
    rfl

theorem rewindLCG_isSome_iff (n k : Nat) : (rewindLCG n k).isSome = true ↔ n < 2 ^ 30 := by
  rw [rewindLCG, can_rewind_true, if_pos rfl]
  constructor
  · intro h
    by_contra hge
    rw [transformnBackGo_none LCG_TABLE n k (by rw [LCG_TABLE_len]; omega)] at h
    simp at h
  · intro h
    exact transformnBackGo_isSome LCG_TABLE n k LCG_TABLE_allSome (by rw [LCG_TABLE_len]; exact h)

set_option maxRecDepth 8000 in
theorem one_step_rollback_lcgNext (k : Nat) (hk : k < 2 ^ 32) :
    one_step_rollback (lcgNext k) = some k := by
  have hrb : one_step_rollback (lcgNext k)
      = some ((lcgNext k + 2 ^ 32 - 3) * 3067833783 % 2 ^ 32) := by
    rw [one_step_rollback, can_rewind_true, LCG_TABLE_cons]
    rfl
  rw [hrb, Option.some_inj]
  have hA : (lcgNext k + 2 ^ 32 - 3) ≡ k * 7 [MOD 2 ^ 32] := by
    have he : lcgNext k + 2 ^ 32 - 3 = (k * 7 + 3) % 2 ^ 32 + (2 ^ 32 - 3) := by
      rw [lcgNext]; omega
    rw [he]
    calc (k * 7 + 3) % 2 ^ 32 + (2 ^ 32 - 3)
        ≡ (k * 7 + 3) + (2 ^ 32 - 3) [MOD 2 ^ 32] := Nat.ModEq.add_right _ (Nat.mod_modEq _ _)
      _ = k * 7 + 2 ^ 32 := by omega
      _ ≡ k * 7 [MOD 2 ^ 32] := by
          show (k * 7 + 2 ^ 32) % 2 ^ 32 = (k * 7) % 2 ^ 32
          exact Nat.add_mod_right _ _
  calc (lcgNext k + 2 ^ 32 - 3) * 3067833783 % 2 ^ 32
      = (k * 7) * 3067833783 % 2 ^ 32 := hA.mul_right _
    _ = (k + k * 5 * 2 ^ 32) % 2 ^ 32 := by
        have hq : k * 7 * 3067833783 = k + k * 5 * 2 ^ 32 := by ring
        rw [hq]
    _ = k % 2 ^ 32 := Nat.add_mul_mod_self_right k (k * 5) (2 ^ 32)
    _ = k := Nat.mod_eq_of_lt hk

/-! ## XOR pipeline theorems -/

theorem keyByte_xor (x y r : Nat) : keyByte (x ^^^ y) r = keyByte x r ^^^ keyByte y r := by
  have h256 : (256 : Nat) = 2 ^ 8 := by norm_num
  have hp : (256 : Nat) ^ r = 2 ^ (8 * r) := by
    rw [h256, ← pow_mul]
  apply Nat.eq_of_testBit_eq
  intro i
  simp only [keyByte]
  rw [hp]
  simp only [← Nat.shiftRight_eq_div_pow]
  rw [h256]
  simp only [Nat.testBit_mod_two_pow, Nat.testBit_shiftRight, Nat.testBit_xor]
  rw [Bool.and_xor_distrib_left]

theorem keyByte_leWord (b0 b1 b2 b3 : Nat)
    (h0 : b0 < 256) (h1 : b1 < 256) (h2 : b2 < 256) (h3 : b3 < 256) :
    keyByte (leWord b0 b1 b2 b3) 0 = b0 ∧ keyByte (leWord b0 b1 b2 b3) 1 = b1 ∧
    keyByte (leWord b0 b1 b2 b3) 2 = b2 ∧ keyByte (leWord b0 b1 b2 b3) 3 = b3 := by
  simp only [keyByte, leWord, pow_zero, pow_one, pow_succ]
  norm_num
  omega

theorem wordToBytes_eq_keyBytes (w : Nat) :
    wordToBytes w = [keyByte w 0, keyByte w 1, keyByte w 2, keyByte w 3] := by
  simp only [wordToBytes, keyByte]
  norm_num

theorem xor_pipeline (f : Nat → Nat) :
    ∀ (c : Nat) (buf : List Nat) (k : Nat), buf.length = 4 * c → (∀ x ∈ buf, x < 256) →
      wordsToBytes ((xorWords f k (bytesToWords buf)).1)
        = (List.range (4 * c)).map (fun j => buf.getD j 0 ^^^ keyByte (f^[j / 4] k) (j % 4))
      ∧ (xorWords f k (bytesToWords buf)).2 = f^[c] k := by
  intro c
  induction c with
  | zero =>
    intro buf k hlen _
    rw [List.length_eq_zero] at hlen
    subst hlen
    simp [bytesToWords, xorWords, wordsToBytes]
  | succ c ih =>
    intro buf k hlen hb
    rcases buf with _ | ⟨b0, _ | ⟨b1, _ | ⟨b2, _ | ⟨b3, rest⟩⟩⟩⟩ <;>
      simp only [List.length_nil, List.length_cons] at hlen <;> try omega
    have hrest : rest.length = 4 * c := by omega
    have hbr : ∀ x ∈ rest, x < 256 := fun x hx => hb x (by simp [hx])
    have h0 : b0 < 256 := hb b0 (by simp)
    have h1 : b1 < 256 := hb b1 (by simp)
    have h2 : b2 < 256 := hb b2 (by simp)
    have h3 : b3 < 256 := hb b3 (by simp)
    obtain ⟨ihL, ihK⟩ := ih rest (f k) hrest hbr
    have hw : bytesToWords (b0 :: b1 :: b2 :: b3 :: rest)
        = leWord b0 b1 b2 b3 :: bytesToWords rest := rfl
    have hx : xorWords f k (leWord b0 b1 b2 b3 :: bytesToWords rest)
        = ((leWord b0 b1 b2 b3 ^^^ k) :: (xorWords f (f k) (bytesToWords rest)).1,
           (xorWords f (f k) (bytesToWords rest)).2) := rfl
    constructor
    · rw [hw, hx]
      show wordToBytes (leWord b0 b1 b2 b3 ^^^ k)
          ++ wordsToBytes (xorWords f (f k) (bytesToWords rest)).1 = _
      rw [ihL]
      obtain ⟨e0, e1, e2, e3⟩ := keyByte_leWord b0 b1 b2 b3 h0 h1 h2 h3
      have hsplit : (4 : Nat) * (c + 1) = 4 + 4 * c := by ring
      rw [hsplit, List.range_add, List.map_append]
      have hr4 : List.range 4 = [0, 1, 2, 3] := rfl
      rw [hr4]
      simp only [List.map_cons, List.map_nil, List.map_map]
      rw [wordToBytes_eq_keyBytes]
      simp only [keyByte_xor, e0, e1, e2, e3]
      have hhead : [((b0 :: b1 :: b2 :: b3 :: rest).getD 0 0 ^^^ keyByte (f^[0 / 4] k) (0 % 4)),
          ((b0 :: b1 :: b2 :: b3 :: rest).getD 1 0 ^^^ keyByte (f^[1 / 4] k) (1 % 4)),
          ((b0 :: b1 :: b2 :: b3 :: rest).getD 2 0 ^^^ keyByte (f^[2 / 4] k) (2 % 4)),
          ((b0 :: b1 :: b2 :: b3 :: rest).getD 3 0 ^^^ keyByte (f^[3 / 4] k) (3 % 4))]
          = [b0 ^^^ keyByte k 0, b1 ^^^ keyByte k 1, b2 ^^^ keyByte k 2, b3 ^^^ keyByte k 3] := by
        norm_num [List.getD]
      have htail : List.map
          ((fun j => (b0 :: b1 :: b2 :: b3 :: rest).getD j 0 ^^^ keyByte (f^[j / 4] k) (j % 4))
            ∘ fun x => 4 + x) (List.range (4 * c))
          = List.map (fun j => rest.getD j 0 ^^^ keyByte (f^[j / 4] (f k)) (j % 4))
              (List.range (4 * c)) := by
        apply List.map_congr_left
        intro j _
        have hgd : (b0 :: b1 :: b2 :: b3 :: rest).getD (4 + j) 0 = rest.getD j 0 := by
          have h4 : 4 + j = j + 1 + 1 + 1 + 1 := by omega
          rw [h4]
          simp [List.getD]
        have hdiv : (4 + j) / 4 = j / 4 + 1 := by omega
        have hmod : (4 + j) % 4 = j % 4 := by omega
        simp only [Function.comp_apply, hgd, hdiv, hmod, Function.iterate_succ_apply]
      rw [hhead, htail]
    · rw [hw, hx]
      show (xorWords f (f k) (bytesToWords rest)).2 = f^[c + 1] k
      rw [ihK, Function.iterate_succ_apply]

theorem map_range_drop_take {α : Type} (g : Nat → α) (n off L : Nat) (h : off + L ≤ n) :
    (((List.range n).map g).drop off).take L = (List.range L).map fun t => g (off + t) := by
  have hn : n = off + (n - off) := by omega
  rw [hn, List.range_add, List.map_append]
  have hdrop : (List.map g (List.range off) ++ List.map g
      ((List.range (n - off)).map fun x => off + x)).drop off
      = List.map g ((List.range (n - off)).map fun x => off + x) :=
    List.drop_left' (by simp)
  rw [hdrop, List.map_map, ← List.map_take, List.take_range]
  have hmin : min L (n - off) = L := by omega
  rw [hmin]
  simp [Function.comp]

theorem getD_mid (off : Nat) (raw pad : List Nat) (t : Nat) (ht : t < raw.length) :
    (List.replicate off 0 ++ raw ++ pad).getD (off + t) 0 = raw.getD t 0 := by
  simp only [List.getD_eq_getElem?_getD]
  have h1 : ((List.replicate off 0 ++ raw) ++ pad)[off + t]?
      = (List.replicate off 0 ++ raw)[off + t]? :=
    List.getElem?_append_left (by simp; omega)
  have h2 : (List.replicate off 0 ++ raw)[off + t]?
      = raw[off + t - (List.replicate off 0).length]? :=
    List.getElem?_append_right (by simp)
  rw [h1, h2]
  simp only [List.length_replicate]
  have h3 : off + t - off = t := by omega
  rw [h3]

theorem getD_take_drop (arc : List Nat) (p L t : Nat) (ht : t < L) :
    ((arc.drop p).take L).getD t 0 = arc.getD (p + t) 0 := by
  simp only [List.getD_eq_getElem?_getD, List.getElem?_take, if_pos ht, List.getElem?_drop]

theorem lcgNext_iter_lt (n k : Nat) (hk : k < 2 ^ 32) : lcgNext^[n] k < 2 ^ 32 := by
  cases n with
  | zero => simpa using hk
  | succ n =>
    rw [Function.iterate_succ_apply']
    exact Nat.mod_lt _ (by norm_num)

theorem staticAdvance_iter (n k : Nat) : staticAdvance^[n] k = k := by
  induction n with
  | zero => rfl
  | succ n ih => rw [Function.iterate_succ_apply]; exact ih

theorem read_unaligned_eval (f : Nat → Nat) (rb : Nat → Option Nat) (arc : List Nat)
    (p k L off : Nat) (hoff : off < 4) (heof : p + L ≤ arc.length)
    (hb : ∀ x ∈ arc, x < 256) :
    read_32bits_unaligned f rb arc ⟨p, k⟩ L off =
      if 4 * ((L + off + 3) / 4) ≠ off + L then
        (rb (f^[(L + off + 3) / 4] k)).map fun k2 => (unalignedOut f arc p k L off, ⟨p + L, k2⟩)
      else some (unalignedOut f arc p k L off, ⟨p + L, f^[(L + off + 3) / 4] k⟩) := by
  have hlt4 : ¬ 4 ≤ off := by omega
  simp only [read_32bits_unaligned]
  rw [if_neg hlt4]
  have hrawlen : ((arc.drop p).take L).length = L := by
    simp only [List.length_take, List.length_drop]
    omega
  rw [hrawlen]
  have hcle : off + L ≤ 4 * ((L + off + 3) / 4) := by omega
  have hbuflen : (List.replicate off 0 ++ (arc.drop p).take L
      ++ List.replicate (4 * ((L + off + 3) / 4) - (off + L)) 0).length
      = 4 * ((L + off + 3) / 4) := by
    simp only [List.length_append, List.length_replicate, hrawlen]
    omega
  have hbuf256 : ∀ x ∈ List.replicate off 0 ++ (arc.drop p).take L
      ++ List.replicate (4 * ((L + off + 3) / 4) - (off + L)) 0, x < 256 := by
    intro x hx
    rcases List.mem_append.mp hx with h | h
    · rcases List.mem_append.mp h with h2 | h2
      · rw [List.eq_of_mem_replicate h2]; norm_num
      · exact hb x (List.mem_of_mem_drop (List.mem_of_mem_take h2))
    · rw [List.eq_of_mem_replicate h]; norm_num
  obtain ⟨hres, hkey⟩ := xor_pipeline f ((L + off + 3) / 4) _ k hbuflen hbuf256
  have houtr : List.take L (List.drop off (wordsToBytes (xorWords f k
      (bytesToWords (List.replicate off 0 ++ (arc.drop p).take L
        ++ List.replicate (4 * ((L + off + 3) / 4) - (off + L)) 0))).1))
      = unalignedOut f arc p k L off := by
    rw [hres, map_range_drop_take _ _ _ _ hcle]
    apply List.map_congr_left
    intro t hmt
    have ht : t < L := List.mem_range.mp hmt
    have hg1 : (List.replicate off 0 ++ (arc.drop p).take L
        ++ List.replicate (4 * ((L + off + 3) / 4) - (off + L)) 0).getD (off + t) 0
        = ((arc.drop p).take L).getD t 0 :=
      getD_mid off _ _ t (by omega)
    rw [hg1, getD_take_drop arc p L t ht]
  rw [houtr, hkey]

theorem read_unaligned_lcg (arc : List Nat) (p k L off : Nat) (hoff : off < 4)
    (hk : k < 2 ^ 32) (heof : p + L ≤ arc.length) (hb : ∀ x ∈ arc, x < 256) :
    read_32bits_unaligned lcgNext one_step_rollback arc ⟨p, k⟩ L off
      = some (unalignedOut lcgNext arc p k L off, ⟨p + L, lcgNext^[(off + L) / 4] k⟩) := by
  rw [read_unaligned_eval lcgNext one_step_rollback arc p k L off hoff heof hb]
  by_cases hmis : (off + L) % 4 = 0
  · rw [if_neg (by omega)]
    have hc : (L + off + 3) / 4 = (off + L) / 4 := by omega
    rw [hc]
  · rw [if_pos (by omega)]
    have hc : (L + off + 3) / 4 = (off + L) / 4 + 1 := by omega
    rw [hc, Function.iterate_succ_apply',
      one_step_rollback_lcgNext _ (lcgNext_iter_lt _ _ hk)]
    rfl

theorem read_unaligned_static (arc : List Nat) (p k L off : Nat) (hoff : off < 4)
    (heof : p + L ≤ arc.length) (hb : ∀ x ∈ arc, x < 256) :
    read_32bits_unaligned staticAdvance staticRollback arc ⟨p, k⟩ L off
      = some (unalignedOut staticAdvance arc p k L off, ⟨p + L, k⟩) := by
  rw [read_unaligned_eval staticAdvance staticRollback arc p k L off hoff heof hb]
  by_cases hmis : 4 * ((L + off + 3) / 4) ≠ off + L
  · rw [if_pos hmis, staticAdvance_iter]
    rfl
  · rw [if_neg hmis, staticAdvance_iter]

theorem xorWords_static : ∀ (ws : List Nat) (k : Nat),
    xorWords staticAdvance k ws = (ws.map (· ^^^ k), k) := by
  intro ws
  induction ws with
  | nil => intro k; rfl
  | cons w ws ih =>
    intro k
    show ((w ^^^ k) :: (xorWords staticAdvance (staticAdvance k) ws).1,
      (xorWords staticAdvance (staticAdvance k) ws).2) = _
    rw [show staticAdvance k = k from rfl, ih k]
    rfl

theorem read_32bits_static (arc : List Nat) (p k n : Nat) (hlen : p + 4 * n ≤ arc.length) :
    read_32bits staticAdvance arc ⟨p, k⟩ n
      = some ((bytesToWords ((arc.drop p).take (4 * n))).map (· ^^^ k), ⟨p + 4 * n, k⟩) := by
  have hrawlen : ((arc.drop p).take (4 * n)).length = 4 * n := by
    simp only [List.length_take, List.length_drop]
    omega
  simp only [read_32bits, hrawlen]
  rw [if_neg (by omega)]
  rw [if_neg (by simp [hrawlen])]
  rw [Nat.sub_self]
  simp only [List.replicate_zero, List.append_nil, xorWords_static]

theorem fdiv_natCast4 (a : Nat) : Int.fdiv (a : Int) 4 = ((a / 4 : Nat) : Int) := by
  rw [show (4 : Int) = ((4 : Nat) : Int) from rfl, ← Int.ofNat_fdiv]

theorem fileSeek_set (arc : List Nat) (e : Entry) (a : Nat) (ha : a / 4 < 2 ^ 30) :
    fileSeek arc e (fileOpen e) (a : Int) .set
      = some ⟨e.base + a, lcgNext^[a / 4] e.seed⟩ := by
  simp only [fileSeek, fileOpen, ftell, sub_self]
  rw [if_neg ?hA]
  case hA =>
    rintro (⟨-, h⟩ | ⟨h, -⟩ | ⟨h, -⟩)
    · omega
    · exact absurd h (by simp)
    · exact absurd h (by simp)
  rw [show Int.fdiv 0 4 = 0 from rfl]
  rw [if_pos ⟨trivial, by rw [fdiv_natCast4]; exact Int.natCast_nonneg _⟩]
  rw [sub_zero, fdiv_natCast4, skipI, if_neg (by omega), Int.toNat_natCast,
    skipLCG_spec (a / 4) e.seed ha]
  simp only [Option.some_bind, if_true]
  rw [if_neg (by omega)]
  have ht : ((a : Int) + e.base).toNat = e.base + a := by omega
  rw [ht]

theorem map_range_drop {α : Type} (g : Nat → α) (n off : Nat) (h : off ≤ n) :
    ((List.range n).map g).drop off = (List.range (n - off)).map fun t => g (off + t) := by
  have hlen : (((List.range n).map g).drop off).length = n - off := by simp
  calc ((List.range n).map g).drop off
      = (((List.range n).map g).drop off).take (n - off) := by rw [← hlen, List.take_length]
    _ = _ := map_range_drop_take g n off (n - off) (by omega)

theorem unalignedOut_plain (arc : List Nat) (base seed v L : Nat) :
    unalignedOut lcgNext arc (base + v) (lcgNext^[v / 4] seed) L (v % 4)
      = (List.range L).map fun t => plainByte arc base seed (v + t) := by
  apply List.map_congr_left
  intro t _
  have h1 : (v % 4 + t) / 4 + v / 4 = (v + t) / 4 := by omega
  have h2 : (v % 4 + t) % 4 = (v + t) % 4 := by omega
  show arc.getD (base + v + t) 0
      ^^^ keyByte (lcgNext^[(v % 4 + t) / 4] (lcgNext^[v / 4] seed)) ((v % 4 + t) % 4) = _
  rw [← Function.iterate_add_apply, h1, h2, plainByte, Nat.add_assoc]

theorem fileRead_synced (arc : List Nat) (e : Entry) (v L : Nat)
    (hvL : v + L ≤ e.size) (harc : e.base + e.size ≤ arc.length)
    (hseed : e.seed < 2 ^ 32) (hbytes : ∀ x ∈ arc, x < 256) :
    fileRead arc e ⟨e.base + v, lcgNext^[v / 4] e.seed⟩ (L : Int)
      = some ((List.range L).map fun t => plainByte arc e.base e.seed (v + t),
              ⟨e.base + v + L, lcgNext^[(v + L) / 4] e.seed⟩) := by
  have htell : ftell e ⟨e.base + v, lcgNext^[v / 4] e.seed⟩ = (v : Int) := by
    simp only [ftell]
    push_cast
    ring
  rw [fileRead, if_neg (by rw [htell]; omega), read_data_32bit, htell]
  rcases Nat.eq_zero_or_pos L with hL0 | hLpos
  · subst hL0
    rw [if_pos (by omega)]
    simp
  · rw [if_neg (by omega)]
    have hmod : (((v : Int) % 4).toNat) = v % 4 := by omega
    have htn : ((L : Int)).toNat = L := by omega
    rw [hmod, htn]
    have hread := read_unaligned_lcg arc (e.base + v) (lcgNext^[v / 4] e.seed) L (v % 4)
      (by omega) (lcgNext_iter_lt _ _ hseed) (by omega) hbytes
    rw [hread, unalignedOut_plain]
    have hkey : lcgNext^[(v % 4 + L) / 4] (lcgNext^[v / 4] e.seed)
        = lcgNext^[(v + L) / 4] e.seed := by
      rw [← Function.iterate_add_apply]
      congr 1
      omega
    rw [hkey]

/-- C1: for an entry and positions `a ≤ b ≤ size`, opening the entry's
stream, seeking to `a` with SEEK_SET and reading `b - a` bytes returns
exactly the bytes `[a, b)` of the plaintext that a fresh stream on the
same entry produces for `read(b)`. -/
theorem seek_then_read_equals_read_suffix (arc : List Nat) (e : Entry) (a b : Nat)
    (hab : a ≤ b) (hbs : b ≤ e.size) (hsize : e.size < 2 ^ 32)
    (hseed : e.seed < 2 ^ 32) (harc : e.base + e.size ≤ arc.length)
    (hbytes : ∀ x ∈ arc, x < 256) :
    ((fileSeek arc e (fileOpen e) (a : Int) .set).bind fun st1 =>
        (fileRead arc e st1 ((b : Int) - a)).map Prod.fst)
      = (fileRead arc e (fileOpen e) (b : Int)).map fun r => r.1.drop a := by
  have ha30 : a / 4 < 2 ^ 30 := by omega
  rw [fileSeek_set arc e a ha30]
  rw [show ((b : Int) - a) = ((b - a : Nat) : Int) from by omega]
  rw [Option.some_bind,
    fileRead_synced arc e a (b - a) (by omega) harc hseed hbytes]
  rw [show (fileOpen e) = (⟨e.base + 0, lcgNext^[0 / 4] e.seed⟩ : RWState) from by
    simp [fileOpen]]
  rw [fileRead_synced arc e 0 b (by omega) harc hseed hbytes]
  simp only [Option.map_some']
  congr 1
  rw [map_range_drop _ b a hab]
  apply List.map_congr_left
  intro t _
  rw [Nat.zero_add]

/-! ## Rollback continuation (C4), read-at-eof (C10), seek evaluation (C3) -/

set_option maxRecDepth 8000 in
theorem one_step_rollback_eval (k : Nat) :
    one_step_rollback k = some ((k + 2 ^ 32 - 3) * 3067833783 % 2 ^ 32) := by
  rw [one_step_rollback, can_rewind_true, LCG_TABLE_cons]
  rfl

set_option maxRecDepth 8000 in
theorem rewindLCG_one (k : Nat) :
    rewindLCG 1 k = some ((k + 2 ^ 32 - 3) * 3067833783 % 2 ^ 32) := by
  rw [rewindLCG, can_rewind_true, LCG_TABLE_cons]
  rfl

theorem unalignedOut_append (f : Nat → Nat) (arc : List Nat) (p k L m off : Nat) :
    unalignedOut f arc p k (L + m) off
      = unalignedOut f arc p k L off
        ++ unalignedOut f arc (p + L) (f^[(off + L) / 4] k) m ((off + L) % 4) := by
  rw [unalignedOut, List.range_add, List.map_append]
  congr 1
  rw [unalignedOut, List.map_map]
  apply List.map_congr_left
  intro t _
  have h1 : ((off + L) % 4 + t) / 4 + (off + L) / 4 = (off + (L + t)) / 4 := by omega
  have h2 : ((off + L) % 4 + t) % 4 = (off + (L + t)) % 4 := by omega
  show arc.getD (p + (L + t)) 0 ^^^ keyByte (f^[(off + (L + t)) / 4] k) ((off + (L + t)) % 4)
      = arc.getD (p + L + t) 0 ^^^ keyByte (f^[((off + L) % 4 + t) / 4] (f^[(off + L) / 4] k))
          (((off + L) % 4 + t) % 4)
  rw [← Function.iterate_add_apply, h1, h2, Nat.add_assoc]

/-- C4 (amended): after `read_unaligned(len, off)` with
`(len + off) % 4 ≠ 0`, the next `read_unaligned(m, (off + len) % 4)`
(the left offset of the true logical position, not `0` as the claim
stated) continues the stream: issuing a single `read_unaligned(len + m,
off)` on an equivalent fresh stream produces the concatenation of the
two reads and the same final state, which is what the one-step rollback
guarantees. -/
theorem rollback_continuation_amended (arc : List Nat) (p k L m off : Nat) (hoff : off < 4)
    (hk : k < 2 ^ 32) (heof : p + (L + m) ≤ arc.length) (hb : ∀ x ∈ arc, x < 256)
    (hmis : (L + off) % 4 ≠ 0) :
    read_32bits_unaligned lcgNext one_step_rollback arc ⟨p, k⟩ (L + m) off
      = (read_32bits_unaligned lcgNext one_step_rollback arc ⟨p, k⟩ L off).bind fun r1 =>
          (read_32bits_unaligned lcgNext one_step_rollback arc r1.2 m ((off + L) % 4)).map
            fun r2 => (r1.1 ++ r2.1, r2.2) := by
  rw [read_unaligned_lcg arc p k (L + m) off hoff hk (by omega) hb,
    read_unaligned_lcg arc p k L off hoff hk (by omega) hb,
    Option.some_bind]
  rw [read_unaligned_lcg arc (p + L) (lcgNext^[(off + L) / 4] k) m ((off + L) % 4)
    (by omega) (lcgNext_iter_lt _ _ hk) (by omega) hb]
  rw [Option.map_some']
  have hkey : lcgNext^[((off + L) % 4 + m) / 4] (lcgNext^[(off + L) / 4] k)
      = lcgNext^[(off + (L + m)) / 4] k := by
    rw [← Function.iterate_add_apply]
    congr 1
    omega
  rw [hkey, unalignedOut_append]
  simp [Nat.add_assoc]

/-- C10: when the stream's virtual position is at or past the entry
size, `read(n)` returns the empty byte string for every `n` (negative
sizes included) and leaves the raw cursor and the keystream state
untouched. -/
theorem read_at_or_past_eof_empty (arc : List Nat) (e : Entry) (st : RWState) (sz : Int)
    (h : (e.size : Int) ≤ ftell e st) :
    fileRead arc e st sz = some ([], st) := by
  rw [fileRead]
  by_cases hc : sz < 0 ∨ (e.size : Int) - ftell e st < sz
  · rw [if_pos hc, read_data_32bit, if_pos (by omega)]
  · rw [if_neg hc, read_data_32bit, if_pos (by push_neg at hc; omega)]

/-- C6 (code bug): `read_32bits(2)` over a 4-byte source hits EOF,
shrinks the word count to 1, and then `fmt.unpack(buf)` raises
`struct.error` because the preallocated buffer still has 8 bytes; no
truncated result is returned. -/
theorem read_32bits_eof_struct_error :
    read_32bits lcgNext [0, 0, 0, 0] ⟨0, 0xdeadcafe⟩ 2 = none := by decide

/-- C7 (counterexample): the 8-byte header `"RGSSAD" ++ [0x51, 1]`
is not `"RGSSAD\0" ++ version` and not `"Fux2Pack"`, yet the magic
check accepts it as a v1 archive, because `struct.unpack('<6sxB')`
never inspects the pad byte 6. -/
theorem header_pad_byte_counterexample :
    check_magic (RGSSAD_MAGIC ++ [81, 1]) = some .v1
      ∧ ¬ claim_header_ok (RGSSAD_MAGIC ++ [81, 1]) := by
  constructor
  · decide
  · simp only [claim_header_ok]
    decide

/-- C7 (amended): an 8-byte header is accepted exactly when bytes
0..5 are ASCII `"RGSSAD"` and byte 7 is 1, 2 or 3 (byte 6 is ignored),
or when the 8 bytes are exactly `"Fux2Pack"`; every other 8-byte header
fails with `UnsupportedFormat` (`none`). -/
theorem header_acceptance_amended (hdr : List Nat) (h8 : hdr.length = 8) :
    (check_magic hdr).isSome = true ↔ code_header_ok hdr := by
  rw [check_magic, if_neg (by omega), code_header_ok]
  by_cases hfux : hdr = FUX2PACK_MAGIC
  · rw [if_neg (by rintro ⟨-, hne⟩; exact hne hfux), if_pos hfux]
    simp only [Option.isSome_some, true_iff]
    exact Or.inr hfux
  · by_cases hmag : hdr.take 6 = RGSSAD_MAGIC
    · by_cases hv : hdr.getD 7 0 = 1 ∨ hdr.getD 7 0 = 2 ∨ hdr.getD 7 0 = 3
      · rw [if_neg ?hcond]
        case hcond =>
          rintro ⟨h | h, -⟩
          · exact h hmag
          · tauto
        rw [if_neg hfux]
        rcases hv with h1 | h2 | h3
        · rw [if_pos (Or.inl h1)]
          simp only [Option.isSome_some, true_iff]
          exact Or.inl ⟨hmag, Or.inl h1⟩
        · rw [if_pos (Or.inr h2)]
          simp only [Option.isSome_some, true_iff]
          exact Or.inl ⟨hmag, Or.inr (Or.inl h2)⟩
        · rw [if_neg (by rw [h3]; decide), if_pos h3]
          simp only [Option.isSome_some, true_iff]
          exact Or.inl ⟨hmag, Or.inr (Or.inr h3)⟩
      · rw [if_pos ⟨Or.inr (by tauto), hfux⟩]
        simp only [Option.isSome_none, Bool.false_eq_true, false_iff]
        rintro (⟨-, h⟩ | h)
        · exact hv h
        · exact hfux h
    · rw [if_pos ⟨Or.inl hmag, hfux⟩]
      simp only [Option.isSome_none, Bool.false_eq_true, false_iff]
      rintro (⟨h, -⟩ | h)
      · exact hmag h
      · exact hfux h


theorem seek_end_eval_helper :
    fileSeek (List.replicate 8 0) ⟨0, 8, 0xdeadcafe⟩ (fileOpen ⟨0, 8, 0xdeadcafe⟩)
      (-4) .fromEnd = some ⟨4, 0x4461f86d⟩ := by
  simp only [fileSeek, fileOpen, ftell]
  simp only [show ((-4 : Int)).fdiv 4 = -1 from rfl, show Int.fdiv 0 4 = 0 from rfl]
  rw [if_neg (by decide)]
  rw [if_neg (by decide), if_neg (by decide), if_neg (by decide), if_neg (by decide),
    if_pos trivial]
  have hror : rewind_or_reset_skip 3735931646 ((((8 : Nat) : Int)).fdiv 4)
      (((((8 : Nat) : Int)) + -4).fdiv 4) 3735931646 = some 1147271277 := by
    rw [show (((8 : Nat) : Int)).fdiv 4 = 2 from rfl,
      show (((((8 : Nat) : Int)) + -4)).fdiv 4 = 1 from rfl]
    rw [rewind_or_reset_skip, if_neg (by decide), if_pos (by decide)]
    rw [show ((2 : Int) - 1) = 1 from rfl]
    rw [rewindI, if_neg (by decide), show ((1 : Int)).toNat = 1 from rfl, rewindLCG_one]
    norm_num
  rw [hror, Option.some_bind]
  rw [if_neg (by decide)]
  rfl

/-- C3 (code bug): the two access paths `seek(4, SEEK_SET)` and
`seek(-4, SEEK_END)` position an 8-byte entry's stream at the same
virtual position 4, but `SEEK_END` rewinds the keystream from
`vfile_length // 4` instead of the current block, leaving the key at
`0x4461f86d` rather than the synchronised `lcgNext^[1] seed`, so the
byte read at position 4 differs between the paths (`0xf5` vs `0x6d`). -/
theorem seek_end_keystream_desync :
    ((fileSeek (List.replicate 8 0) ⟨0, 8, 0xdeadcafe⟩ (fileOpen ⟨0, 8, 0xdeadcafe⟩)
        ((4 : Nat) : Int) .set).bind fun st =>
      (fileRead (List.replicate 8 0) ⟨0, 8, 0xdeadcafe⟩ st ((1 : Nat) : Int)).map Prod.fst)
      = some [0xf5]
    ∧ fileSeek (List.replicate 8 0) ⟨0, 8, 0xdeadcafe⟩ (fileOpen ⟨0, 8, 0xdeadcafe⟩)
        (-4) .fromEnd = some ⟨4, 0x4461f86d⟩
    ∧ (0x4461f86d : Nat) ≠ lcgNext^[4 / 4] 0xdeadcafe
    ∧ ((fileSeek (List.replicate 8 0) ⟨0, 8, 0xdeadcafe⟩ (fileOpen ⟨0, 8, 0xdeadcafe⟩)
        (-4) .fromEnd).bind fun st =>
      (fileRead (List.replicate 8 0) ⟨0, 8, 0xdeadcafe⟩ st ((1 : Nat) : Int)).map Prod.fst)
      = some [0x6d] := by
  refine ⟨?_, seek_end_eval_helper, by decide, ?_⟩
  · rw [fileSeek_set (List.replicate 8 0) ⟨0, 8, 0xdeadcafe⟩ 4 (by norm_num),
      Option.some_bind]
    rw [show (⟨(⟨0, 8, 0xdeadcafe⟩ : Entry).base + 4,
        lcgNext^[4 / 4] (⟨0, 8, 0xdeadcafe⟩ : Entry).seed⟩ : RWState)
      = ⟨(⟨0, 8, 0xdeadcafe⟩ : Entry).base + 4,
        lcgNext^[4 / 4] (⟨0, 8, 0xdeadcafe⟩ : Entry).seed⟩ from rfl]
    rw [fileRead_synced (List.replicate 8 0) ⟨0, 8, 0xdeadcafe⟩ 4 1 (by decide) (by decide)
      (by decide) (by decide)]
    simp only [Option.map_some']
    decide
  · rw [seek_end_eval_helper, Option.some_bind]
    rw [fileRead, if_neg (by decide), read_data_32bit, if_neg (by decide)]
    rw [show ((ftell ⟨0, 8, 0xdeadcafe⟩ ⟨4, 0x4461f86d⟩ % 4).toNat) = 0 from by decide,
      show (((1 : Nat) : Int)).toNat = 1 from rfl]
    rw [read_unaligned_lcg (List.replicate 8 0) 4 0x4461f86d 1 0 (by decide) (by decide)
      (by decide) (by decide)]
    simp only [Option.map_some']
    decide

/-! ## C4 counterexample and C8 static parser theorems -/

theorem rollback_zero_offset_counterexample :
    ((read_32bits_unaligned lcgNext one_step_rollback (List.replicate 8 0)
        ⟨0, 0xdeadcafe⟩ 1 0).bind fun r1 =>
      (read_32bits_unaligned lcgNext one_step_rollback (List.replicate 8 0) r1.2 1 0).map
        fun r2 => r1.1 ++ r2.1)
      = some [0xfe, 0xfe]
    ∧ (read_32bits_unaligned lcgNext one_step_rollback (List.replicate 8 0)
        ⟨0, 0xdeadcafe⟩ 2 0).map Prod.fst = some [0xfe, 0xca]
    ∧ ([0xfe, 0xfe] : List Nat) ≠ [0xfe, 0xca] := by
  refine ⟨?_, ?_, by decide⟩
  · rw [read_unaligned_lcg (List.replicate 8 0) 0 0xdeadcafe 1 0 (by decide) (by decide)
      (by decide) (by decide), Option.some_bind]
    rw [read_unaligned_lcg (List.replicate 8 0) (0 + 1) (lcgNext^[(0 + 1) / 4] 0xdeadcafe) 1 0
      (by decide) (by decide) (by decide) (by decide)]
    simp only [Option.map_some']
    decide
  · rw [read_unaligned_lcg (List.replicate 8 0) 0 0xdeadcafe 2 0 (by decide) (by decide)
      (by decide) (by decide)]
    simp only [Option.map_some']
    decide

/-- C8: the v3 metadata key is `(seed * 9 + 3) % 2^32` and the
Fux2Pack metadata key is the raw seed; every 32-bit word of a metadata
record and every filename byte is XORed against that same static key,
and the static factory's key never advances (it is returned unchanged
in the post-state of both reads). -/
theorem v3_metadata_static_key (seed : Nat) (arc : List Nat) (p k L : Nat)
    (hrec : p + 16 ≤ arc.length) (hfn : p + L ≤ arc.length) (hb : ∀ x ∈ arc, x < 256) :
    parser_v3_metadata_key false seed = (seed * 9 + 3) % 2 ^ 32
    ∧ parser_v3_metadata_key true seed = seed
    ∧ parser_v3_read_record arc ⟨p, k⟩
        = some ((bytesToWords ((arc.drop p).take 16)).map (· ^^^ k), ⟨p + 16, k⟩)
    ∧ parser_v3_read_fn arc ⟨p, k⟩ L
        = some (unalignedOut staticAdvance arc p k L 0, ⟨p + L, k⟩) := by
  refine ⟨rfl, rfl, ?_, ?_⟩
  · rw [parser_v3_read_record, read_32bits_static arc p k 4 (by omega)]
  · rw [parser_v3_read_fn, read_unaligned_static arc p k L 0 (by omega) hfn hb]

/-! ## Directory tree invariant (C9) -/

theorem mknod_spec (t : ArchiveTree) (parent : Nat) (name : String) (node : Inode)
    (t2 : ArchiveTree) (newId : Nat) (h : mknod t parent name node = some (t2, newId)) :
    ∃ ch, t.inodes.get? parent = some (some (.dir ch))
      ∧ newId = t.inodes.length
      ∧ t2.root_inode = t.root_inode
      ∧ t2.inodes = (t.inodes ++ [some node]).set parent
          (some (.dir (ch ++ [(newId, name)]))) := by
  unfold mknod at h
  split at h
  next ch heq =>
    simp only [Option.some.injEq, Prod.mk.injEq] at h
    obtain ⟨h1, h2⟩ := h
    subst h2
    subst h1
    exact ⟨ch, heq, rfl, rfl, rfl⟩
  next => simp at h

theorem mknod_get? (t : ArchiveTree) (parent : Nat) (name : String) (node : Inode)
    (t2 : ArchiveTree) (newId : Nat) (h : mknod t parent name node = some (t2, newId)) :
    t2.root_inode = t.root_inode
    ∧ newId = t.inodes.length
    ∧ parent < t.inodes.length
    ∧ ∃ ch, t.inodes.get? parent = some (some (.dir ch))
        ∧ t2.inodes.get? parent = some (some (.dir (ch ++ [(newId, name)])))
        ∧ t2.inodes.get? newId = some (some node)
        ∧ ∀ i, i ≠ parent → i ≠ newId → t2.inodes.get? i = t.inodes.get? i := by
  obtain ⟨ch, heq, hnew, hroot, hinodes⟩ := mknod_spec t parent name node t2 newId h
  have hplt : parent < t.inodes.length := by
    rw [List.get?_eq_getElem?] at heq
    exact (List.getElem?_eq_some_iff.mp heq).1
  have hlen2 : parent < (t.inodes ++ [some node]).length := by
    simp only [List.length_append, List.length_cons, List.length_nil]
    omega
  refine ⟨hroot, hnew, hplt, ch, heq, ?_, ?_, ?_⟩
  · rw [hinodes, List.get?_eq_getElem?, List.getElem?_set_self hlen2]
  · rw [hinodes, List.get?_eq_getElem?, List.getElem?_set_ne (by omega), hnew,
      List.getElem?_concat_length]
  · intro i hip hin
    rw [hinodes, List.get?_eq_getElem?, List.getElem?_set_ne (Ne.symm hip),
      List.get?_eq_getElem?]
    by_cases hlt : i < t.inodes.length
    · rw [List.getElem?_append_left hlt]
    · have hbig : (t.inodes ++ [some node]).length ≤ i := by
        simp only [List.length_append, List.length_cons, List.length_nil]
        omega
      rw [List.getElem?_eq_none hbig, List.getElem?_eq_none (by omega)]

theorem readdirAll_of_dir (t : ArchiveTree) (i : Nat) (ch : List (Nat × String))
    (h : t.inodes.get? i = some (some (.dir ch))) : readdirAll t i = ch := by
  rw [readdirAll, h]

theorem mknod_readdirAll_mem (t : ArchiveTree) (parent : Nat) (name : String) (node : Inode)
    (t2 : ArchiveTree) (newId : Nat) (h : mknod t parent name node = some (t2, newId)) :
    ∀ (p : Nat) (x : Nat × String), x ∈ readdirAll t p → x ∈ readdirAll t2 p := by
  obtain ⟨-, hnew, hplt, ch, heq, hgp, -, hgo⟩ := mknod_get? t parent name node t2 newId h
  intro p x hx
  rcases hgetp : t.inodes.get? p with - | op
  · rw [readdirAll, hgetp] at hx
    exact absurd hx (List.not_mem_nil x)
  rcases op with - | nd
  · rw [readdirAll, hgetp] at hx
    exact absurd hx (List.not_mem_nil x)
  rcases nd with chp | ⟨o, s, m⟩
  · rw [readdirAll_of_dir t p chp hgetp] at hx
    have hpl : p < t.inodes.length := by
      rw [List.get?_eq_getElem?] at hgetp
      exact (List.getElem?_eq_some_iff.mp hgetp).1
    have hpn : p ≠ newId := by omega
    by_cases hpp : p = parent
    · subst hpp
      have hch : chp = ch := by
        rw [hgetp] at heq
        simpa using heq
      rw [readdirAll_of_dir t2 p _ hgp]
      exact List.mem_append_left _ (hch ▸ hx)
    · rw [readdirAll, hgo p hpp hpn, hgetp]
      exact hx
  · rw [readdirAll, hgetp] at hx
    exact absurd hx (List.not_mem_nil x)

theorem mknod_preserves (t : ArchiveTree) (parent : Nat) (name : String) (node : Inode)
    (t2 : ArchiveTree) (newId : Nat) (h : mknod t parent name node = some (t2, newId))
    (hinv : TreeInv t)
    (hnode : ∀ ch0, node = .dir ch0 → ch0 = [(newId, "."), (parent, "..")]) :
    TreeInv t2 := by
  obtain ⟨hroot, hnew, hplt, ch, heqt, hgp, hgn, hgo⟩ := mknod_get? t parent name node t2 newId h
  obtain ⟨⟨rch, hrch⟩, hdir⟩ := hinv
  have hrlt : t.root_inode < t.inodes.length := by
    rw [List.get?_eq_getElem?] at hrch
    exact (List.getElem?_eq_some_iff.mp hrch).1
  have hmemlift := mknod_readdirAll_mem t parent name node t2 newId h
  have hdirlift : ∀ p pch, t.inodes.get? p = some (some (.dir pch)) →
      ∃ pch2, t2.inodes.get? p = some (some (.dir pch2)) := by
    intro p pch hp
    have hpl : p < t.inodes.length := by
      rw [List.get?_eq_getElem?] at hp
      exact (List.getElem?_eq_some_iff.mp hp).1
    by_cases hpp : p = parent
    · subst hpp
      exact ⟨_, hgp⟩
    · exact ⟨pch, by rw [hgo p hpp (by omega)]; exact hp⟩
  constructor
  · by_cases hrp : t.root_inode = parent
    · rw [hroot, hrp]
      exact ⟨_, hgp⟩
    · rw [hroot, hgo _ hrp (by omega)]
      exact ⟨rch, hrch⟩
  intro i ch2 hi
  by_cases hip : i = parent
  · subst hip
    rw [hgp, Option.some.injEq, Option.some.injEq, Inode.dir.injEq] at hi
    obtain ⟨p, rest, hch, ⟨pch, hpch⟩, hrimp, hmem⟩ := hdir i ch heqt
    refine ⟨p, rest ++ [(newId, name)], ?_, hdirlift p pch hpch, ?_, ?_⟩
    · rw [← hi, hch]
      rfl
    · intro hir
      rw [hroot]
      exact hrimp (by rw [hroot] at hir; exact hir)
    · intro hir
      obtain ⟨nm, hnm⟩ := hmem (by rw [hroot] at hir; exact hir)
      exact ⟨nm, hmemlift p (i, nm) hnm⟩
  · by_cases hin : i = newId
    · subst hin
      rw [hgn, Option.some.injEq, Option.some.injEq] at hi
      have hch0 := hnode ch2 hi
      refine ⟨parent, [], by rw [hch0], ⟨_, hgp⟩, ?_, ?_⟩
      · intro hir
        rw [hroot] at hir
        omega
      · intro _
        refine ⟨name, ?_⟩
        rw [readdirAll_of_dir t2 parent _ hgp]
        exact List.mem_append_right _ (by simp)
    · rw [hgo i hip hin] at hi
      obtain ⟨p, rest, hch, ⟨pch, hpch⟩, hrimp, hmem⟩ := hdir i ch2 hi
      refine ⟨p, rest, hch, hdirlift p pch hpch, ?_, ?_⟩
      · intro hir
        rw [hroot]
        exact hrimp (by rw [hroot] at hir; exact hir)
      · intro hir
        obtain ⟨nm, hnm⟩ := hmem (by rw [hroot] at hir; exact hir)
        exact ⟨nm, hmemlift p (i, nm) hnm⟩

theorem mkdirNode_preserves (t : ArchiveTree) (parent : Nat) (name : String)
    (t2 : ArchiveTree) (newId : Nat) (h : mkdirNode t parent name = some (t2, newId))
    (hinv : TreeInv t) : TreeInv t2 ∧ t2.root_inode = t.root_inode := by
  rw [mkdirNode] at h
  obtain ⟨hroot, hnew, -, -⟩ := mknod_get? t parent name _ t2 newId h
  refine ⟨mknod_preserves t parent name _ t2 newId h hinv ?_, hroot⟩
  intro ch0 hch0
  rw [Inode.dir.injEq] at hch0
  rw [← hch0, hnew]

theorem addFileEntry_preserves (t : ArchiveTree) (parent : Nat) (name : String)
    (o s m : Nat) (t2 : ArchiveTree) (newId : Nat)
    (h : addFileEntry t parent name o s m = some (t2, newId)) (hinv : TreeInv t) :
    TreeInv t2 ∧ t2.root_inode = t.root_inode := by
  rw [addFileEntry] at h
  obtain ⟨hroot, -, -, -⟩ := mknod_get? t parent name _ t2 newId h
  refine ⟨mknod_preserves t parent name _ t2 newId h hinv ?_, hroot⟩
  intro ch0 hch0
  exact absurd hch0 (by simp)

theorem ntMkdirP_go_preserves :
    ∀ (comps : List String) (t : ArchiveTree) (cur : Nat) (t2 : ArchiveTree) (cur2 : Nat),
      List.foldlM
        (fun (acc : ArchiveTree × Nat) p =>
          match treeLookup acc.1 acc.2 p with
          | some next => some (acc.1, next)
          | none => mkdirNode acc.1 acc.2 p) (t, cur) comps = some (t2, cur2) →
      TreeInv t → TreeInv t2 ∧ t2.root_inode = t.root_inode := by
  intro comps
  induction comps with
  | nil =>
    intro t cur t2 cur2 h hinv
    rw [List.foldlM_nil] at h
    simp only [pure, Option.some.injEq, Prod.mk.injEq] at h
    obtain ⟨h1, -⟩ := h
    subst h1
    exact ⟨hinv, rfl⟩
  | cons p ps ih =>
    intro t cur t2 cur2 h hinv
    rw [List.foldlM_cons] at h
    rcases hlk : treeLookup t cur p with - | next
    · rcases hmk : mkdirNode t cur p with - | ⟨t1, cur1⟩
      · rw [show (match treeLookup t cur p with
            | some next => some (t, next)
            | none => mkdirNode t cur p) = none from by rw [hlk, hmk]] at h
        simp at h
      · rw [show (match treeLookup t cur p with
            | some next => some (t, next)
            | none => mkdirNode t cur p) = some (t1, cur1) from by rw [hlk, hmk]] at h
        simp only [Option.bind_eq_bind, Option.some_bind] at h
        obtain ⟨hinv1, hr1⟩ := mkdirNode_preserves t cur p t1 cur1 hmk hinv
        obtain ⟨hinv2, hr2⟩ := ih t1 cur1 t2 cur2 h hinv1
        exact ⟨hinv2, by rw [hr2, hr1]⟩
    · rw [show (match treeLookup t cur p with
          | some next => some (t, next)
          | none => mkdirNode t cur p) = some (t, next) from by rw [hlk]] at h
      simp only [Option.bind_eq_bind, Option.some_bind] at h
      exact ih t next t2 cur2 h hinv

theorem ntMkdirP_preserves (t : ArchiveTree) (comps : List String) (t2 : ArchiveTree)
    (cur2 : Nat) (h : ntMkdirP t comps = some (t2, cur2)) (hinv : TreeInv t) :
    TreeInv t2 ∧ t2.root_inode = t.root_inode := by
  rw [ntMkdirP] at h
  exact ntMkdirP_go_preserves comps t t.root_inode t2 cur2 h hinv

theorem archiveInitTree_inv (root : Nat) : TreeInv (archiveInitTree root) := by
  have hget : (archiveInitTree root).inodes.get? root
      = some (some (.dir [(root, "."), (root, "..")])) := by
    rw [archiveInitTree, List.get?_eq_getElem?,
      List.getElem?_append_right (by simp), List.length_replicate, Nat.sub_self]
    rfl
  constructor
  · exact ⟨_, hget⟩
  intro i ch hi
  by_cases hir : i = root
  · subst hir
    rw [hget, Option.some.injEq, Option.some.injEq, Inode.dir.injEq] at hi
    refine ⟨i, [], by rw [← hi], ⟨_, hget⟩, fun _ => rfl, fun hne => absurd rfl hne⟩
  · exfalso
    rw [archiveInitTree, List.get?_eq_getElem?] at hi
    by_cases hlt : i < root
    · rw [List.getElem?_append_left (by simp [hlt]), List.getElem?_replicate,
        if_pos hlt] at hi
      simp at hi
    · rw [List.getElem?_eq_none (by simp; omega)] at hi
      simp at hi

theorem buildDirectoryTree_inv :
    ∀ (entries : List MdEntry) (t0 : ArchiveTree) (t : ArchiveTree),
      List.foldlM
        (fun t e => do
          let (t1, parent) ← ntMkdirP t e.dirComps
          let (t2, _) ← addFileEntry t1 parent e.basename e.offset e.size e.magickey
          pure t2) t0 entries = some t →
      TreeInv t0 → TreeInv t ∧ t.root_inode = t0.root_inode := by
  intro entries
  induction entries with
  | nil =>
    intro t0 t h hinv
    rw [List.foldlM_nil] at h
    simp only [pure, Option.some.injEq] at h
    subst h
    exact ⟨hinv, rfl⟩
  | cons e es ih =>
    intro t0 t h hinv
    rw [List.foldlM_cons] at h
    rcases hmk : ntMkdirP t0 e.dirComps with - | ⟨t1, parent⟩
    · rw [hmk] at h
      simp at h
    · rw [hmk] at h
      simp only [Option.bind_eq_bind, Option.some_bind] at h
      rcases haf : addFileEntry t1 parent e.basename e.offset e.size e.magickey
          with - | ⟨t2', newId⟩
      · rw [haf] at h
        simp at h
      · rw [haf] at h
        simp only [Option.some_bind, pure] at h
        obtain ⟨hinv1, hr1⟩ := ntMkdirP_preserves t0 e.dirComps t1 parent hmk hinv
        obtain ⟨hinv2, hr2⟩ := addFileEntry_preserves t1 parent e.basename
          e.offset e.size e.magickey t2' newId haf hinv1
        obtain ⟨hinv3, hr3⟩ := ih t2' t h hinv2
        exact ⟨hinv3, by rw [hr3, hr2, hr1]⟩

theorem buildDirectoryTree_treeInv (root : Nat) (entries : List MdEntry) (t : ArchiveTree)
    (h : buildDirectoryTree root entries = some t) : TreeInv t ∧ t.root_inode = root := by
  rw [buildDirectoryTree] at h
  obtain ⟨hinv, hr⟩ := buildDirectoryTree_inv entries (archiveInitTree root) t h
    (archiveInitTree_inv root)
  exact ⟨hinv, by rw [hr]; rfl⟩

/-- C9: in every successfully constructed archive tree, every
directory inode's child list has the synthetic `.` entry at position 0
referring to the directory itself and `..` at position 1 referring to
its parent (the root's `..` is the root; a non-root directory's `..` is
a directory whose children include it), and `readdir` yields the stored
children in insertion order (`children[offset:]` with an offset). -/
theorem directory_dot_dotdot_invariant (root : Nat) (entries : List MdEntry) (t : ArchiveTree)
    (h : buildDirectoryTree root entries = some t) :
    ∀ (i : Nat) (ch : List (Nat × String)), t.inodes.get? i = some (some (.dir ch)) →
      ∃ p rest, readdir t i none = (i, ".") :: (p, "..") :: rest
        ∧ (∀ off, readdir t i (some off) = ((i, ".") :: (p, "..") :: rest).drop off)
        ∧ (i = root → p = root)
        ∧ (i ≠ root → ∃ pch nm, t.inodes.get? p = some (some (.dir pch)) ∧ (i, nm) ∈ pch) := by
  obtain ⟨⟨-, hdir⟩, hr⟩ := buildDirectoryTree_treeInv root entries t h
  intro i ch hi
  obtain ⟨p, rest, hch, ⟨pch, hpch⟩, hrimp, hmem⟩ := hdir i ch hi
  have hall : readdirAll t i = ch := readdirAll_of_dir t i ch hi
  refine ⟨p, rest, ?_, ?_, ?_, ?_⟩
  · rw [readdir, hall, hch]
  · intro off
    rw [readdir, hall, hch]
  · intro hir
    rw [← hr]
    exact hrimp (by rw [hr]; exact hir)
  · intro hir
    obtain ⟨nm, hnm⟩ := hmem (by rw [hr]; exact hir)
    rw [readdirAll_of_dir t p pch hpch] at hnm
    exact ⟨pch, nm, hpch, hnm⟩


/-! ## Claim theorems for the keystream engine (C2, C5) and witnesses -/

/-- C2: for every seed and every `n ≤ 2^20`, one `skip(n)` leaves the
same key as `n` calls to `get_next()` (whose state advance is
`lcgNext`), and each precomputed table row `T[b]` applies the LCG
`2^b` times as a single affine map. -/
theorem skip_matches_iterated_get_next (s n : Nat) (hn : n ≤ 2 ^ 20) :
    skipLCG n s = some (lcgNext^[n] s)
    ∧ ∀ (b : Nat) (hb : b < LCG_TABLE.length) (k : Nat),
        rowApply (LCG_TABLE.get ⟨b, hb⟩) k = lcgNext^[2 ^ b] k := by
  refine ⟨skipLCG_spec n s (lt_of_le_of_lt hn (by norm_num)), ?_⟩
  intro b hb k
  simpa using rowsSpec_get LCG_TABLE 0 rowsSpec_table b hb k

/-- C2 witness: the equivalence at seed `0xdeadcafe` and `n = 5`. -/
theorem skip_matches_iterated_get_next_witness :
    (5 ≤ 2 ^ 20)
    ∧ (skipLCG 5 0xdeadcafe = some (lcgNext^[5] 0xdeadcafe)
      ∧ ∀ (b : Nat) (hb : b < LCG_TABLE.length) (k : Nat),
          rowApply (LCG_TABLE.get ⟨b, hb⟩) k = lcgNext^[2 ^ b] k) :=
  ⟨by norm_num, skip_matches_iterated_get_next 0xdeadcafe 5 (by norm_num)⟩

/-- C5 (counterexample): `skip(2^30)` does not succeed: bit 30 falls
outside the 30-row `LCG_TABLE` and the lookup raises `IndexError`. -/
theorem skip_beyond_table_counterexample :
    skipLCG (2 ^ 30) 0xdeadcafe = none := by decide

/-- C5 (amended): `skip(n)` and (since the multiplier 7 is invertible)
`rewind(n)` succeed exactly when `n < 2^30`; beyond that the
precomputed table is exhausted and both raise, so failures are not
limited to rewind on a non-invertible multiplier. -/
theorem skip_rewind_success_iff (n k : Nat) :
    ((skipLCG n k).isSome = true ↔ n < 2 ^ 30)
    ∧ ((rewindLCG n k).isSome = true ↔ n < 2 ^ 30) :=
  ⟨skipLCG_isSome_iff n k, rewindLCG_isSome_iff n k⟩

/-! ## Witnesses for the claim theorems with hypotheses -/

/-- C1 witness: the seek-then-read equation on a concrete 8-byte entry
with `a = 1`, `b = 5`. -/
theorem seek_then_read_equals_read_suffix_witness :
    ((1 ≤ 5 ∧ 5 ≤ (⟨0, 8, 0xdeadcafe⟩ : Entry).size
        ∧ (⟨0, 8, 0xdeadcafe⟩ : Entry).size < 2 ^ 32
        ∧ (⟨0, 8, 0xdeadcafe⟩ : Entry).seed < 2 ^ 32
        ∧ (⟨0, 8, 0xdeadcafe⟩ : Entry).base + (⟨0, 8, 0xdeadcafe⟩ : Entry).size
            ≤ (List.replicate 8 0).length)
      ∧ ∀ x ∈ List.replicate 8 0, x < 256)
    ∧ ((fileSeek (List.replicate 8 0) ⟨0, 8, 0xdeadcafe⟩
          (fileOpen ⟨0, 8, 0xdeadcafe⟩) ((1 : Nat) : Int) .set).bind fun st1 =>
        (fileRead (List.replicate 8 0) ⟨0, 8, 0xdeadcafe⟩ st1
          (((5 : Nat) : Int) - ((1 : Nat) : Int))).map Prod.fst)
      = (fileRead (List.replicate 8 0) ⟨0, 8, 0xdeadcafe⟩
          (fileOpen ⟨0, 8, 0xdeadcafe⟩) ((5 : Nat) : Int)).map fun r => r.1.drop 1 :=
  ⟨⟨by decide, by decide⟩,
    seek_then_read_equals_read_suffix (List.replicate 8 0) ⟨0, 8, 0xdeadcafe⟩ 1 5
      (by decide) (by decide) (by decide) (by decide) (by decide) (by decide)⟩

/-- C4 witness: the amended continuation equation at a concrete
misaligned first read (`len = 1`, `off = 0`, `m = 1`). -/
theorem rollback_continuation_amended_witness :
    ((0 < 4 ∧ (0xdeadcafe : Nat) < 2 ^ 32 ∧ 0 + (1 + 1) ≤ (List.replicate 8 0).length
        ∧ (1 + 0) % 4 ≠ 0)
      ∧ ∀ x ∈ List.replicate 8 0, x < 256)
    ∧ read_32bits_unaligned lcgNext one_step_rollback (List.replicate 8 0)
        ⟨0, 0xdeadcafe⟩ (1 + 1) 0
      = (read_32bits_unaligned lcgNext one_step_rollback (List.replicate 8 0)
          ⟨0, 0xdeadcafe⟩ 1 0).bind fun r1 =>
          (read_32bits_unaligned lcgNext one_step_rollback (List.replicate 8 0) r1.2 1
            ((0 + 1) % 4)).map fun r2 => (r1.1 ++ r2.1, r2.2) :=
  ⟨⟨by decide, by decide⟩,
    rollback_continuation_amended (List.replicate 8 0) 0 0xdeadcafe 1 1 0
      (by decide) (by decide) (by decide) (by decide) (by decide)⟩

/-- C7 witness: the amended acceptance condition at the genuine v3
header `"RGSSAD\\0\\x03"`. -/
theorem header_acceptance_amended_witness :
    (RGSSAD_MAGIC ++ [0, 3]).length = 8
    ∧ ((check_magic (RGSSAD_MAGIC ++ [0, 3])).isSome = true
      ↔ code_header_ok (RGSSAD_MAGIC ++ [0, 3])) :=
  ⟨by decide, header_acceptance_amended (RGSSAD_MAGIC ++ [0, 3]) (by decide)⟩

/-- C8 witness: the static-key parse equations on a concrete 16-byte
zero region with seed 5 and key 3. -/
theorem v3_metadata_static_key_witness :
    ((0 + 16 ≤ (List.replicate 16 0).length ∧ 0 + 4 ≤ (List.replicate 16 0).length)
      ∧ ∀ x ∈ List.replicate 16 0, x < 256)
    ∧ (parser_v3_metadata_key false 5 = (5 * 9 + 3) % 2 ^ 32
      ∧ parser_v3_metadata_key true 5 = 5
      ∧ parser_v3_read_record (List.replicate 16 0) ⟨0, 3⟩
          = some ((bytesToWords (((List.replicate 16 0).drop 0).take 16)).map (· ^^^ 3),
              ⟨0 + 16, 3⟩)
      ∧ parser_v3_read_fn (List.replicate 16 0) ⟨0, 3⟩ 4
          = some (unalignedOut staticAdvance (List.replicate 16 0) 0 3 4 0, ⟨0 + 4, 3⟩)) :=
  ⟨⟨by decide, by decide⟩,
    v3_metadata_static_key 5 (List.replicate 16 0) 0 3 4 (by decide) (by decide) (by decide)⟩

/-- C9 witness: the directory invariant on the tree built from one
entry `sub\a.txt`. -/
theorem directory_dot_dotdot_invariant_witness :
    buildDirectoryTree 1 [⟨["sub"], "a.txt", 100, 4, 7⟩]
      = some ⟨1, [none, some (.dir [(1, "."), (1, ".."), (2, "sub")]),
          some (.dir [(2, "."), (1, ".."), (3, "a.txt")]),
          some (.file 100 4 7)]⟩
    ∧ ∀ (i : Nat) (ch : List (Nat × String)),
        (⟨1, [none, some (.dir [(1, "."), (1, ".."), (2, "sub")]),
          some (.dir [(2, "."), (1, ".."), (3, "a.txt")]),
          some (.file 100 4 7)]⟩ : ArchiveTree).inodes.get? i = some (some (.dir ch)) →
      ∃ p rest, readdir ⟨1, [none, some (.dir [(1, "."), (1, ".."), (2, "sub")]),
          some (.dir [(2, "."), (1, ".."), (3, "a.txt")]),
          some (.file 100 4 7)]⟩ i none = (i, ".") :: (p, "..") :: rest
        ∧ (∀ off, readdir ⟨1, [none, some (.dir [(1, "."), (1, ".."), (2, "sub")]),
            some (.dir [(2, "."), (1, ".."), (3, "a.txt")]),
            some (.file 100 4 7)]⟩ i (some off) = ((i, ".") :: (p, "..") :: rest).drop off)
        ∧ (i = 1 → p = 1)
        ∧ (i ≠ 1 → ∃ pch nm, (⟨1, [none, some (.dir [(1, "."), (1, ".."), (2, "sub")]),
            some (.dir [(2, "."), (1, ".."), (3, "a.txt")]),
            some (.file 100 4 7)]⟩ : ArchiveTree).inodes.get? p = some (some (.dir pch))
              ∧ (i, nm) ∈ pch) :=
  ⟨by decide, directory_dot_dotdot_invariant 1 [⟨["sub"], "a.txt", 100, 4, 7⟩] _ (by decide)⟩

/-- C10 witness: a read of size `-3` at virtual position equal to the
entry size returns the empty string and the unchanged state. -/
theorem read_at_or_past_eof_empty_witness :
    (((⟨0, 0, 1⟩ : Entry).size : Int) ≤ ftell ⟨0, 0, 1⟩ ⟨0, 5⟩)
    ∧ fileRead [] ⟨0, 0, 1⟩ ⟨0, 5⟩ (-3) = some ([], ⟨0, 5⟩) :=
  ⟨by decide, read_at_or_past_eof_empty [] ⟨0, 0, 1⟩ ⟨0, 5⟩ (-3) (by decide)⟩
